import Mathlib

/-!
Verification of the core of `parking_finder` (src/parking_finder/main.py):
the record/diff model (`Parking`, `parking_key_identifier`, `compare_parkings`),
the snapshot store's load path (`parking_state_load`), the message composer
(`format_parking_grp_msg`), and the UTF-8 byte-bounded smart splitter
(`split_utf8_smart`, `split_line_hard`, `last_preferred_boundary_bytes`).

Python `str` values are modelled as `List Char` (one entry per Unicode code
point, as in Python), with UTF-8 byte lengths computed via `Char.utf8Size`.
-/

namespace ParkingFinder

/-- A Python string: a sequence of Unicode code points. -/
abbrev Str := List Char

/-- Shorthand turning a Lean string literal into its code-point list. -/
def S (s : String) : Str := s.data

/-- Model of `utf8len(s)`: `len(s.encode("utf-8"))`, the UTF-8 byte length. -/
def utf8len (s : Str) : Nat := (s.map Char.utf8Size).sum

/-- The line-boundary characters recognised by Python's `str.splitlines`
(`\n`, `\r`, `\v`, `\f`, FS, GS, RS, NEL, LINE SEPARATOR, PARAGRAPH SEPARATOR;
`\r\n` is treated as a single boundary by `splitlines` itself). -/
def isLineBreak (c : Char) : Bool :=
  c = '\n' || c = '\r' || c = '\x0b' || c = '\x0c' ||
  c = '\x1c' || c = '\x1d' || c = '\x1e' || c = '\x85' ||
  c = '\u2028' || c = '\u2029'

/-- Model of Python `text.splitlines(keepends=True)`: split after every line
boundary, keeping the terminator with its line; `\r\n` counts as one
terminator. -/
def splitlines : Str → List Str
  | [] => []
  | c :: rest =>
    if c = '\r' then
      match rest with
      | d :: rest2 =>
        if d = '\n' then [c, d] :: splitlines rest2
        else [c] :: splitlines (d :: rest2)
      | [] => [[c]]
    else if isLineBreak c then
      [c] :: splitlines rest
    else
      match splitlines rest with
      | [] => [[c]]
      | l :: ls => (c :: l) :: ls

/-- The whitespace characters stripped by Python's `str.strip()`
(the `Py_UNICODE_ISSPACE` set). -/
def isPySpace (c : Char) : Bool :=
  (0x09 ≤ c.toNat && c.toNat ≤ 0x0d) || (0x1c ≤ c.toNat && c.toNat ≤ 0x1f) ||
  c.toNat = 0x20 || c.toNat = 0x85 || c.toNat = 0xa0 || c.toNat = 0x1680 ||
  (0x2000 ≤ c.toNat && c.toNat ≤ 0x200a) ||
  c.toNat = 0x2028 || c.toNat = 0x2029 || c.toNat = 0x202f ||
  c.toNat = 0x205f || c.toNat = 0x3000

/-- Model of Python `s.strip()`: drop leading and trailing whitespace. -/
def pyStrip (s : Str) : Str :=
  ((s.dropWhile isPySpace).reverse.dropWhile isPySpace).reverse

/-- Lower-casing of one code point, as Python `str.lower` acts on the
ASCII and Latin-1 ranges (the alphabets occurring in this program's text;
Python additionally lowers other Unicode ranges, which the program's data
never contains). -/
def pyLowerChar (c : Char) : Char :=
  let n := c.toNat
  if (0x41 ≤ n ∧ n ≤ 0x5a) ∨ (0xc0 ≤ n ∧ n ≤ 0xd6) ∨ (0xd8 ≤ n ∧ n ≤ 0xde) then
    Char.ofNat (n + 0x20)
  else c

/-- Model of Python `s.lower()` (see `pyLowerChar`). -/
def pyLower (s : Str) : Str := s.map pyLowerChar

/-- Case folding of one code point, as Python `str.casefold` acts on the
ASCII and Latin-1 ranges: lower-casing, except that `ß` folds to `ss`. -/
def caseFoldChar (c : Char) : Str :=
  if c.toNat = 0xdf then ['s', 's'] else [pyLowerChar c]

/-- Model of Python `s.casefold()` (see `caseFoldChar`). -/
def caseFold (s : Str) : Str := s.flatMap caseFoldChar

/-- Model of Python's substring test `pat in s`. -/
def hasSubstr : Str → Str → Bool
  | [], pat => pat.isEmpty
  | s@(_ :: rest), pat => pat.isPrefixOf s || hasSubstr rest pat

/-- The literal separator line content `--`. -/
def dashDash : Str := ['-', '-']

/-! ## The smart splitter (main.py lines 850-1012) -/

/-- Loop body of `split_line_hard`: walk the characters of the line with the
current chunk `cur` and its byte length `curB`; a character that would
overflow `max_bytes` closes the current chunk (even when it is empty, as the
Python code appends `cur` unconditionally) and starts a new one. -/
def slh_go (max_bytes : Nat) : Str → Str → Nat → List Str
  | [], cur, _curB => if cur.isEmpty then [] else [cur]
  | ch :: rest, cur, curB =>
    let cb := ch.utf8Size
    if curB + cb > max_bytes then
      cur :: slh_go max_bytes rest [ch] cb
    else
      slh_go max_bytes rest (cur ++ [ch]) (curB + cb)

/-- Model of `split_line_hard(line, max_bytes)`: split a single oversized line
into byte-safe chunks, greedily accumulating characters. -/
def split_line_hard (line : Str) (max_bytes : Nat) : List Str :=
  slh_go max_bytes line [] 0

/-- Model of `_is_completion_line(line, token)`: strip `*` and `_`, case-fold,
and test whether the token (case-folded) occurs as a substring. -/
def _is_completion_line (line token : Str) : Bool :=
  let normalized := caseFold ((line.filter (fun c => c != '*')).filter (fun c => c != '_'))
  hasSubstr normalized (caseFold token)

/-- Scanning loop of `last_preferred_boundary_bytes`: walk the lines carrying
the byte offset `off` reached so far and the most recent non-empty line
`prev` (initially the empty string), collecting the candidate cut offsets in
scan order.  A line whose stripped content is `--` contributes the offset
after itself (Rule B); a blank line whose `prev` is non-empty and passes
`_is_completion_line` contributes the offset after itself (Rule A); a
non-blank line becomes the new `prev`.  In the Python code the Rule B check
textually precedes the blank test, but a line stripping to `--` is never
blank, so Rule B fires exactly in the non-blank branch. -/
def lpb_go (token : Str) : List Str → Nat → Str → List Nat
  | [], _off, _prev => []
  | ln :: rest, off, prev =>
    let stripped := pyStrip ln
    let off2 := off + utf8len ln
    let bCand : List Nat := if stripped == dashDash then [off2] else []
    if !stripped.isEmpty then
      bCand ++ lpb_go token rest off2 ln
    else
      bCand ++
        (if !prev.isEmpty && _is_completion_line prev token then [off2] else []) ++
        lpb_go token rest off2 prev

/-- Model of `last_preferred_boundary_bytes(cur_text, completion_token)`:
the byte index after the last preferred boundary inside `cur_text`, or
`none`.  The Python code materialises the cumulative byte offsets of the
line ends and then scans; the running offset of `lpb_go` computes the same
values. -/
def last_preferred_boundary_bytes (cur_text completion_token : Str) : Option Nat :=
  (lpb_go completion_token (splitlines cur_text) 0 []).getLast?

/-- Model of slicing the UTF-8 encoding of `s` at byte offset `cut` and
strictly decoding both halves (`b[:cut].decode` / `b[cut:].decode` in
`split_utf8_smart`): succeeds exactly when `cut` lands on a code-point
boundary, returning the two halves. -/
def splitAtByteOffset (s : Str) (cut : Nat) : Option (Str × Str) :=
  if cut = 0 then some ([], s)
  else
    match s with
    | [] => none
    | c :: rest =>
      if c.utf8Size ≤ cut then
        (splitAtByteOffset rest (cut - c.utf8Size)).map (fun p => (c :: p.1, p.2))
      else none

/-- Model of the local helper `flush_chunk(buf, out)` of `split_utf8_smart`:
the chunk appended when the buffer is flushed (nothing when it is empty). -/
def flush_chunk (buf : List Str) : List Str :=
  if buf.isEmpty then [] else [buf.flatten]

/-- The overflow handling of `split_utf8_smart` (main.py lines 989-1005) for a
pending line of byte length `lb`: when the buffer would overflow, try the
preferred cut (whose byte slicing may in principle fail to decode, hence the
`Option`), then force-flush if still too big.  Returns the chunks emitted
here together with the new buffer and its byte length. -/
def overflowStep (max_bytes : Nat) (token : Str) (buf : List Str)
    (bufB lb : Nat) : Option (List Str × List Str × Nat) :=
  if bufB + lb > max_bytes then
    match last_preferred_boundary_bytes buf.flatten token with
    | some cut =>
      match splitAtByteOffset buf.flatten cut with
      | none => none
      | some (pre, post) =>
        let buf1 := if post.isEmpty then [] else [post]
        let bufB1 := if post.isEmpty then 0 else utf8len post
        if bufB1 + lb > max_bytes then
          some ([pre] ++ flush_chunk buf1, [], 0)
        else
          some ([pre], buf1, bufB1)
    | none =>
      if bufB + lb > max_bytes then
        some (flush_chunk buf, [], 0)
      else
        some ([], buf, bufB)
  else some ([], buf, bufB)

/-- Main loop of `split_utf8_smart` over the lines of the text, carrying the
accumulation buffer `buf` (a list of already-accumulated pieces, joined on
flush) and its byte length `bufB`.  An oversized line flushes the buffer and
is hard-split; otherwise the overflow handling of `overflowStep` runs and
the line is appended to the buffer.  After all lines, the buffer is
flushed. -/
def sus_go (max_bytes : Nat) (token : Str) :
    List Str → List Str → Nat → Option (List Str)
  | [], buf, _bufB => some (flush_chunk buf)
  | line :: rest, buf, bufB =>
    let lb := utf8len line
    if lb > max_bytes then
      (sus_go max_bytes token rest [] 0).map
        (fun t => flush_chunk buf ++ split_line_hard line max_bytes ++ t)
    else
      match overflowStep max_bytes token buf bufB lb with
      | none => none
      | some (em, buf1, bufB1) =>
        (sus_go max_bytes token rest (buf1 ++ [line]) (bufB1 + lb)).map
          (fun t => em ++ t)

/-- Model of `split_utf8_smart(text, max_bytes, completion_token)`: split
text into UTF-8 byte-limited chunks, preferring semantic boundaries.  The
result is `none` exactly when one of the strict byte-slice decodes of the
Python code would raise (shown elsewhere to be unreachable). -/
def split_utf8_smart (text : Str) (max_bytes : Nat) (completion_token : Str) :
    Option (List Str) :=
  sus_go max_bytes completion_token (splitlines text) [] 0

/-! ## Records, identity and diff (main.py lines 62-80, 463-485, 749-779) -/

/-- Model of the `Parking` pydantic model: six required text attributes. -/
structure Parking where
  access : Str
  address : Str
  area : Str
  interest : Str
  rent : Str
  kind : Str
deriving DecidableEq, Repr

/-- Model of `parking_key_identifier(parking)`: the six fields joined with
`|` in the order area, address, kind, rent, access, interest. -/
def parking_key_identifier (p : Parking) : Str :=
  p.area ++ ['|'] ++ p.address ++ ['|'] ++ p.kind ++ ['|'] ++ p.rent ++
    ['|'] ++ p.access ++ ['|'] ++ p.interest

/-- The result of `compare_parkings`: the Python function returns the dict
`{"added": ..., "removed": ...}`. -/
structure DiffResult where
  added : List Parking
  removed : List Parking
deriving DecidableEq, Repr

/-- Model of `compare_parkings(previous_parkings, current_parkings)`: build
the identity-key sets of both snapshots and keep, in order, the records of
`current` whose key is not a previous key and the records of `previous`
whose key is not a current key. -/
def compare_parkings (previous_parkings current_parkings : List Parking) :
    DiffResult :=
  let previous_parking_keys := previous_parkings.map parking_key_identifier
  let current_parking_keys := current_parkings.map parking_key_identifier
  { added := current_parkings.filter
      (fun p => !(previous_parking_keys.contains (parking_key_identifier p)))
    removed := previous_parkings.filter
      (fun p => !(current_parking_keys.contains (parking_key_identifier p))) }

/-! ## Snapshot store load path (main.py lines 521-566) -/

/-- The possible outcomes of `STATE_FILE_PATH.read_text(encoding="utf-8")`
in `parking_state_load`: the file's bytes decoded to text, a
`FileNotFoundError`, a `UnicodeDecodeError` (the file's bytes are not valid
UTF-8; this is a `ValueError`, not an `OSError`), or another `OSError`. -/
inductive ReadOutcome where
  | ok (text : Str)
  | fileNotFound
  | unicodeDecodeError
  | osError
deriving DecidableEq, Repr

/-- The observable outcome of `parking_state_load`: the returned snapshot
and whether the state file ends up deleted. -/
structure LoadResult where
  snapshot : List Parking
  stateFileDeleted : Bool
deriving DecidableEq, Repr

/-- Model of `parking_state_load()`.  JSON parsing plus pydantic Record
validation (`TypeAdapter(list[Parking]).validate_json`) is an external
library collaborator, modelled as the parameter `validate` (`none` standing
for `json.JSONDecodeError` or `ValidationError`).  On validation failure the
file is unlinked inside `contextlib.suppress(OSError)`: `unlinkOk` says
whether that unlink succeeds, and the function's result does not depend on
it.  A missing file or any other read `OSError` yields an empty snapshot
with no deletion.  A `UnicodeDecodeError` from `read_text` is matched by
none of the function's `except` clauses (`FileNotFoundError`,
`json.JSONDecodeError`, `ValidationError`, `OSError`): it propagates
uncaught and the file is left in place — modelled as the `none` result. -/
def parking_state_load (validate : Str → Option (List Parking))
    (unlinkOk : Bool) : ReadOutcome → Option LoadResult
  | .ok text =>
    match validate text with
    | some parkings => some { snapshot := parkings, stateFileDeleted := false }
    | none => some { snapshot := [], stateFileDeleted := unlinkOk }
  | .fileNotFound => some { snapshot := [], stateFileDeleted := false }
  | .unicodeDecodeError => none
  | .osError => some { snapshot := [], stateFileDeleted := false }

/-- A validator rejecting every content, standing for
`TypeAdapter(list[Parking]).validate_json` on non-JSON text. -/
def rejectAll : Str → Option (List Parking) := fun _ => none

/-! ## Message composer (main.py lines 103-128, 1015-1077) -/

/-- Model of `EMOJI_MAP`: kind (lower-case) to decorative glyph string. -/
def EMOJI_MAP : List (Str × Str) := [
  (S "parkering husvagn", S "🚗 🏕️ 🅿️"),
  (S "parkeringsdäck", S "🚗 🅿️"),
  (S "parkering laddplats", S "🚗 ⚡ 🅿️"),
  (S "parkering motorvärmare", S "🚗 🔌 🅿️"),
  (S "parkeringsplats", S "🚗 🅿️"),
  (S "bilpl på mark h-cap", S "🚗 🅿️"),
  (S "carport motorvärmare", S "🚗 🔌 🏠"),
  (S "carport", S "🚗 🏠"),
  (S "varmgarage", S "🚗 🏢 🔥"),
  (S "kallgarage", S "🚗 🏢"),
  (S "centralgarage dubbelplats", S "🚗 🚗 🏢"),
  (S "centralgarage laddstolpe", S "🚗 ⚡ 🏢"),
  (S "centralgarage uppvärmt", S "🚗 🏢 🔥"),
  (S "centralgarage", S "🚗 🏢 ❄️"),
  (S "varmgarage ej enskilt", S "🚗 🚧 🏢 🔥"),
  (S "kallgarage ej enskilt", S "🚗 🚧 🏢 ❄️"),
  (S "garage dubbelplats", S "🚗🚗 🏠"),
  (S "garage ej enskilt, egen port", S "🚗 🏢"),
  (S "garage motorvärmare ej enskilt", S "🚗 ⚡ 🏢"),
  (S "garage ej enskilt", S "🚗 🏢"),
  (S "centralgarage inhägnad plats", S "🚗 🔒 🏢"),
  (S "varmgarage för motorcykel", S "🏍️ 🔥"),
  (S "kallgarage för motorcykel", S "🏍️ ❄️"),
  (S "garage motorcykel utan nät/vägg", S "🏍️ 🚧")]

/-- Model of `_get_kind_emoji(kind)`: `EMOJI_MAP.get(kind.lower(), "")`. -/
def _get_kind_emoji (kind : Str) : Str :=
  (EMOJI_MAP.lookup (pyLower kind)).getD []

/-- Model of `_format_single_parking_item(parking, is_last_in_area)`: the
fixed five-line block for one record, plus the separator line `  -- ` when
the record is not the last of its area. -/
def _format_single_parking_item (parking : Parking) (is_last_in_area : Bool) :
    List Str :=
  [S "  *Address:* _" ++ parking.address ++ S "_ ",
   S "  *Typ:* _" ++ parking.kind ++ S "_ " ++ _get_kind_emoji parking.kind,
   S "  *Hyra:* _" ++ parking.rent ++ S "_ ",
   S "  *Tillträde:* _" ++ parking.access ++ S "_ ",
   S "  *Antal intresserade:* _" ++ parking.interest ++ S "_ "] ++
  (if is_last_in_area then [] else [S "  -- "])

/-- Python's `<=` on strings: lexicographic comparison of code points,
expressed through the lexicographic order on `List ℕ`. -/
def strLeB (x y : Str) : Bool := decide (x.map Char.toNat ≤ y.map Char.toNat)

/-- The sort key used for records within an area:
`(p.address.lower(), p.kind.lower(), p.rent.lower(), p.access.lower(),
p.interest.lower())`, as code-point lists for lexicographic tuple
comparison. -/
def parkingSortKey (p : Parking) : List (List Nat) :=
  [(pyLower p.address).map Char.toNat,
   (pyLower p.kind).map Char.toNat,
   (pyLower p.rent).map Char.toNat,
   (pyLower p.access).map Char.toNat,
   (pyLower p.interest).map Char.toNat]

/-- Python's `<=` on the record sort keys (tuple comparison is lexicographic
over the component string comparisons). -/
def parkingLe (p q : Parking) : Bool := decide (parkingSortKey p ≤ parkingSortKey q)

/-- Model of `sorted(parking_group[area_name], key=...)` inside
`format_parking_grp_msg` (both `sorted` and `mergeSort` are stable). -/
def sorted_parkings_in_area (l : List Parking) : List Parking :=
  l.mergeSort parkingLe

/-- Model of `for i, parking in enumerate(sorted_parkings_in_area)` with
`is_last = (i == len - 1)`: each record formats with its last-in-area
flag. -/
def formatParkingsLoop : List Parking → List Str
  | [] => []
  | [p] => _format_single_parking_item p true
  | p :: q :: rest => _format_single_parking_item p false ++ formatParkingsLoop (q :: rest)

/-- Model of `format_parking_grp_msg(title, parking_group)`.  The Python
`dict[str, list[Parking]]` is modelled as an association list with distinct
keys; `sorted(parking_group.keys())` is `mergeSort` under Python's string
order `strLeB`, and `parking_group[area_name]` is association-list lookup. -/
def format_parking_grp_msg (title : Str)
    (parking_group : List (Str × List Parking)) : List Str :=
  if parking_group.isEmpty then []
  else
    [title] ++
      ((parking_group.map Prod.fst).mergeSort strLeB).flatMap (fun area_name =>
        ('\n' :: '*' :: area_name ++ ['*', '\n']) ::
          (formatParkingsLoop
              (sorted_parkings_in_area ((parking_group.lookup area_name).getD []))
            ++ [[]]))

/-! ## Specification-side definitions

These restate, independently of the scanning implementations, what the spec
says the functions compute; the theorems below relate them to the
implementations. -/

/-- The most recent line with non-whitespace content among the first `i`
lines, starting from `prev` (the code's `prev_non_empty`, initially the
empty string). -/
def prevWithInit (prev : Str) (lines : List Str) (i : Nat) : Str :=
  (lines.take i).foldl (fun acc ln => if (pyStrip ln).isEmpty then acc else ln) prev

/-- Line `i` is a qualifying preferred cut point when scanning starts with
`prev` as the most recent non-empty line: its stripped content is exactly
`--` (Rule B), or it is blank and the most recent preceding non-empty line
contains the completion token (Rule A). -/
def qualAux (token prev : Str) (lines : List Str) (i : Nat) : Bool :=
  let stripped := pyStrip (lines.getD i [])
  (stripped == dashDash) ||
    (stripped.isEmpty && !(prevWithInit prev lines i).isEmpty &&
      _is_completion_line (prevWithInit prev lines i) token)

/-- Line `i` of the buffer qualifies as a preferred cut point under Rule A
or Rule B (scanning from the start, with no non-empty line seen yet). -/
def qualifiesAt (token : Str) (lines : List Str) (i : Nat) : Bool :=
  qualAux token [] lines i

/-- The cumulative UTF-8 byte offset at the end of the first `k` lines. -/
def cumLineOffset (lines : List Str) (k : Nat) : Nat :=
  utf8len (lines.take k).flatten

/-- All qualifying cut offsets of the buffer `s`, in position order: the
byte offset after line `i`, for each qualifying line `i`. -/
def qualifyingOffsets (s token : Str) : List Nat :=
  ((List.range (splitlines s).length).filter (qualifiesAt token (splitlines s))).map
    (fun i => cumLineOffset (splitlines s) (i + 1))

/-- Recognise an area-header part `"\n*" + area + "*\n"` of the composed
message and extract the area name. -/
def headerAreaOf (part : Str) : Option Str :=
  match part with
  | c1 :: c2 :: rest =>
    if c1 = '\n' ∧ c2 = '*' then
      match rest.reverse with
      | d1 :: d2 :: midRev => if d1 = '\n' ∧ d2 = '*' then some midRev.reverse else none
      | _ => none
    else none
  | _ => none

/-- The sequence of area names of the header parts of a composed message,
in emission order. -/
def headersOf (parts : List Str) : List Str :=
  parts.filterMap headerAreaOf

/-- Case-insensitive alphabetical order on area names, as the spec claims
for area headers. -/
def ciLe (x y : Str) : Bool := strLeB (pyLower x) (pyLower y)

/-- A concrete record used in counterexamples and witnesses. -/
def cexParking : Parking :=
  { access := S "2024-01-01", address := S "Gatan 1", area := S "RYD",
    interest := S "2", rent := S "500", kind := S "Garage" }

/-- A grouped diff with two areas whose case-sensitive and case-insensitive
alphabetical orders differ. -/
def cexGrp : List (Str × List Parking) :=
  [(S "a", [cexParking]), (S "B", [cexParking])]

/-! ## Basic lemmas about byte lengths and line splitting -/

theorem utf8len_nil : utf8len [] = 0 := rfl

theorem utf8len_cons (c : Char) (s : Str) :
    utf8len (c :: s) = c.utf8Size + utf8len s := by
  simp [utf8len]

theorem utf8len_append (a b : Str) :
    utf8len (a ++ b) = utf8len a + utf8len b := by
  simp [utf8len]

theorem utf8len_pos {s : Str} (h : s ≠ []) : 0 < utf8len s := by
  cases s with
  | nil => exact absurd rfl h
  | cons c t =>
    rw [utf8len_cons]
    have := c.utf8Size_pos
    omega

theorem utf8len_flatten (L : List Str) :
    utf8len L.flatten = (L.map utf8len).sum := by
  induction L with
  | nil => rfl
  | cons l ls ih => simp [utf8len_append, ih]

theorem splitlines_cons_break {c : Char} (rest : Str) (hr : ¬ c = '\r')
    (hb : isLineBreak c = true) :
    splitlines (c :: rest) = [c] :: splitlines rest := by
  rw [splitlines.eq_def]
  simp [hr, hb]

theorem splitlines_cons_plain {c : Char} (rest : Str) (hr : ¬ c = '\r')
    (hb : ¬ isLineBreak c = true) :
    splitlines (c :: rest) = match splitlines rest with
      | [] => [[c]]
      | l :: ls => (c :: l) :: ls := by
  rw [splitlines.eq_def]
  simp [hr, hb]

theorem splitlines_flatten (s : Str) : (splitlines s).flatten = s := by
  induction s using splitlines.induct with
  | case1 => rfl
  | case2 rest2 ih => simp [splitlines, ih]
  | case3 d rest2 hd ih => simp [splitlines, hd, ih]
  | case4 => rfl
  | case5 c rest hr hb ih => rw [splitlines_cons_break rest hr hb]; simp [ih]
  | case6 c rest hr hb hsl ih =>
    have hrest : rest = [] := by rw [← ih, hsl]; rfl
    subst hrest
    rw [splitlines_cons_plain [] hr hb]
    simp [hsl]
  | case7 c rest hr hb l ls hsl ih =>
    rw [splitlines_cons_plain rest hr hb, hsl]
    rw [hsl] at ih
    simp only [List.flatten_cons] at ih ⊢
    simp [ih]

theorem splitlines_ne_nil {s l : Str} (h : l ∈ splitlines s) : l ≠ [] := by
  induction s using splitlines.induct with
  | case1 => simp [splitlines] at h
  | case2 rest2 ih =>
    simp only [splitlines] at h
    rcases List.mem_cons.mp h with h | h
    · simp [h]
    · exact ih h
  | case3 d rest2 hd ih =>
    simp only [splitlines, if_neg hd] at h
    rcases List.mem_cons.mp h with h | h
    · simp [h]
    · exact ih h
  | case4 =>
    simp [splitlines] at h
    simp [h]
  | case5 c rest hr hb ih =>
    rw [splitlines_cons_break rest hr hb] at h
    rcases List.mem_cons.mp h with h | h
    · simp [h]
    · exact ih h
  | case6 c rest hr hb hsl ih =>
    rw [splitlines_cons_plain rest hr hb, hsl] at h
    simp at h
    simp [h]
  | case7 c rest hr hb l2 ls hsl ih =>
    rw [splitlines_cons_plain rest hr hb, hsl] at h
    rcases List.mem_cons.mp h with h | h
    · simp [h]
    · exact ih (by rw [hsl]; exact List.mem_cons_of_mem _ h)

theorem splitAtByteOffset_append (a b : Str) :
    splitAtByteOffset (a ++ b) (utf8len a) = some (a, b) := by
  induction a with
  | nil => rw [splitAtByteOffset.eq_def]; simp [utf8len]
  | cons c t ih =>
    rw [splitAtByteOffset.eq_def]
    have hpos : 0 < utf8len (c :: t) := utf8len_pos (by simp)
    rw [if_neg (by omega)]
    have hle : c.utf8Size ≤ utf8len (c :: t) := by
      rw [utf8len_cons]; omega
    simp only [List.cons_append, if_pos hle]
    have hsub : utf8len (c :: t) - c.utf8Size = utf8len t := by
      rw [utf8len_cons]; omega
    rw [hsub, ih]
    rfl

theorem splitAtByteOffset_eq_some {s a b : Str} {cut : Nat}
    (h : splitAtByteOffset s cut = some (a, b)) :
    s = a ++ b ∧ utf8len a = cut := by
  induction s generalizing cut a b with
  | nil =>
    rw [splitAtByteOffset.eq_def] at h
    by_cases h0 : cut = 0
    · subst h0
      simp only [if_pos rfl, Option.some_inj, Prod.mk.injEq] at h
      obtain ⟨rfl, rfl⟩ := h
      exact ⟨rfl, rfl⟩
    · simp [if_neg h0] at h
  | cons c t ih =>
    rw [splitAtByteOffset.eq_def] at h
    by_cases h0 : cut = 0
    · subst h0
      simp only [if_pos rfl, Option.some_inj, Prod.mk.injEq] at h
      obtain ⟨rfl, rfl⟩ := h
      exact ⟨rfl, rfl⟩
    · rw [if_neg h0] at h
      dsimp only at h
      by_cases hc : c.utf8Size ≤ cut
      · rw [if_pos hc] at h
        cases hsub : splitAtByteOffset t (cut - c.utf8Size) with
        | none => rw [hsub] at h; simp at h
        | some p =>
          rw [hsub] at h
          simp at h
          obtain ⟨ha, hb⟩ := h
          obtain ⟨hts, hlen⟩ := ih hsub
          subst hb
          rw [← ha]
          constructor
          · simp [hts]
          · rw [utf8len_cons, hlen]
            omega
      · simp [if_neg hc] at h

theorem prevWithInit_succ_cons (prev ln : Str) (rest : List Str) (i : Nat) :
    prevWithInit prev (ln :: rest) (i + 1) =
    prevWithInit (if (pyStrip ln).isEmpty then prev else ln) rest i := rfl

theorem qualAux_succ (token prev ln : Str) (rest : List Str) (i : Nat) :
    qualAux token prev (ln :: rest) (i + 1) =
      qualAux token (if (pyStrip ln).isEmpty then prev else ln) rest i := by
  simp only [qualAux, prevWithInit_succ_cons, List.getD_cons_succ]

theorem cumLineOffset_succ_cons (ln : Str) (rest : List Str) (k : Nat) :
    cumLineOffset (ln :: rest) (k + 1) = utf8len ln + cumLineOffset rest k := by
  simp [cumLineOffset, utf8len_append, List.take_succ_cons]

theorem cumLineOffset_one (ln : Str) (rest : List Str) :
    cumLineOffset (ln :: rest) 1 = utf8len ln := by
  simp [cumLineOffset, utf8len_append]

theorem lpb_map_shift (off : Nat) (ln : Str) (rest : List Str) (l : List Nat) :
    l.map ((fun i => off + cumLineOffset (ln :: rest) (i + 1)) ∘ Nat.succ)
      = l.map (fun i => (off + utf8len ln) + cumLineOffset rest (i + 1)) := by
  apply List.map_congr_left
  intro i _
  simp only [Function.comp_apply, Nat.succ_eq_add_one, cumLineOffset_succ_cons]
  omega

theorem lpb_go_eq (token : Str) (lines : List Str) :
    ∀ (off : Nat) (prev : Str),
    lpb_go token lines off prev =
      ((List.range lines.length).filter (qualAux token prev lines)).map
        (fun i => off + cumLineOffset lines (i + 1)) := by
  induction lines with
  | nil => intro off prev; rfl
  | cons ln rest ih =>
    intro off prev
    rw [lpb_go]
    have hrange : List.range (ln :: rest).length
        = 0 :: (List.range rest.length).map Nat.succ := by
      simp [List.range_succ_eq_map]
    have hq0 : qualAux token prev (ln :: rest) 0 =
        ((pyStrip ln == dashDash) ||
          ((pyStrip ln).isEmpty && (!prev.isEmpty && _is_completion_line prev token))) := by
      simp [qualAux, prevWithInit, Bool.and_assoc]
    have hcomp : List.filter (qualAux token prev (ln :: rest))
          ((List.range rest.length).map Nat.succ)
        = ((List.range rest.length).filter
            (qualAux token (if (pyStrip ln).isEmpty then prev else ln) rest)).map Nat.succ := by
      rw [List.filter_map]
      have hfc : List.filter (qualAux token prev (ln :: rest) ∘ Nat.succ)
            (List.range rest.length)
          = List.filter (qualAux token (if (pyStrip ln).isEmpty then prev else ln) rest)
            (List.range rest.length) :=
        List.filter_congr (fun i _ => qualAux_succ token prev ln rest i)
      rw [hfc]
    rw [hrange, List.filter_cons, hcomp]
    by_cases hstr : (pyStrip ln).isEmpty
    · have hdash : (pyStrip ln == dashDash) = false := by
        have hnil : pyStrip ln = [] := List.isEmpty_iff.mp hstr
        simp [hnil, dashDash]
      rw [if_neg (by simp [hstr])]
      rw [hq0, hdash, hstr]
      simp only [Bool.false_or, Bool.true_and, if_pos hstr]
      by_cases hA : (!prev.isEmpty && _is_completion_line prev token) = true
      · rw [if_pos hA, hA, if_pos rfl]
        simp only [List.map_cons, List.map_map, Nat.zero_add, cumLineOffset_one,
          lpb_map_shift, ih (off + utf8len ln) prev, Bool.false_eq_true, if_false,
          hstr, if_true, eq_self_iff_true,
          List.nil_append, List.cons_append, List.append_assoc]
      · rw [if_neg hA]
        rw [Bool.not_eq_true] at hA
        rw [hA]
        simp only [List.map_cons, List.map_map, Nat.zero_add, cumLineOffset_one,
          lpb_map_shift, ih (off + utf8len ln) prev, Bool.false_eq_true, if_false,
          hstr, if_true, eq_self_iff_true,
          List.nil_append, List.cons_append, List.append_assoc]
    · have hstrF : (pyStrip ln).isEmpty = false := by
        simpa using hstr
      rw [if_pos (by simp [hstr])]
      rw [hq0, hstrF]
      simp only [Bool.false_and, Bool.or_false, if_neg hstr]
      by_cases hdash : (pyStrip ln == dashDash) = true
      · rw [if_pos hdash, hdash, if_pos rfl]
        simp only [List.map_cons, List.map_map, Nat.zero_add, cumLineOffset_one,
          lpb_map_shift, ih (off + utf8len ln) ln, Bool.false_eq_true, if_false,
          hstrF, if_true, eq_self_iff_true,
          List.nil_append, List.cons_append, List.append_assoc]
      · rw [if_neg hdash]
        rw [Bool.not_eq_true] at hdash
        rw [hdash]
        simp only [List.map_cons, List.map_map, Nat.zero_add, cumLineOffset_one,
          lpb_map_shift, ih (off + utf8len ln) ln, Bool.false_eq_true, if_false,
          hstrF, if_true, eq_self_iff_true,
          List.nil_append, List.cons_append, List.append_assoc]

theorem getLast?_mem_list {α : Type} {l : List α} {a : α} (h : l.getLast? = some a) :
    a ∈ l := by
  have hmem : a ∈ l.getLast? := by rw [Option.mem_def, h]
  obtain ⟨hne, rfl⟩ := List.mem_getLast?_eq_getLast hmem
  exact List.getLast_mem hne

theorem lpb_some_shape {s token : Str} {cut : Nat}
    (h : last_preferred_boundary_bytes s token = some cut) :
    ∃ i < (splitlines s).length, cut = cumLineOffset (splitlines s) (i + 1) := by
  have hmem : cut ∈ lpb_go token (splitlines s) 0 [] :=
    getLast?_mem_list h
  rw [lpb_go_eq] at hmem
  obtain ⟨i, hi, hcut⟩ := List.mem_map.mp hmem
  have hir : i ∈ List.range (splitlines s).length := (List.mem_filter.mp hi).1
  exact ⟨i, List.mem_range.mp hir, by omega⟩

theorem cumLineOffset_pos {lines : List Str} {i : Nat} (hi : i < lines.length)
    (hne : ∀ l ∈ lines, l ≠ []) : 0 < cumLineOffset lines (i + 1) := by
  cases lines with
  | nil => simp at hi
  | cons l0 rest =>
    have h0 : l0 ≠ [] := hne l0 (by simp)
    rw [cumLineOffset_succ_cons]
    have := utf8len_pos h0
    omega

theorem cumLineOffset_le {lines : List Str} (k : Nat) :
    cumLineOffset lines k ≤ utf8len lines.flatten := by
  conv_rhs => rw [← List.take_append_drop k lines]
  rw [List.flatten_append, utf8len_append]
  exact Nat.le_add_right _ _

theorem splitAt_of_lpb {s token : Str} {cut : Nat}
    (h : last_preferred_boundary_bytes s token = some cut) :
    ∃ pre post, splitAtByteOffset s cut = some (pre, post) ∧
      pre ++ post = s ∧ utf8len pre = cut ∧ pre ≠ [] := by
  obtain ⟨i, hi, hcut⟩ := lpb_some_shape h
  set lines := splitlines s with hlines
  have hs : ((lines.take (i + 1)).flatten) ++ ((lines.drop (i + 1)).flatten) = s := by
    rw [← List.flatten_append, List.take_append_drop, hlines, splitlines_flatten]
  have hsplit : splitAtByteOffset s cut
      = some ((lines.take (i + 1)).flatten, (lines.drop (i + 1)).flatten) := by
    rw [← hs, hcut]
    exact splitAtByteOffset_append _ _
  refine ⟨_, _, hsplit, hs, ?_, ?_⟩
  · rw [hcut]; rfl
  · have hpos : 0 < cumLineOffset lines (i + 1) :=
      cumLineOffset_pos hi (fun l hl => splitlines_ne_nil hl)
    intro hnil
    rw [cumLineOffset] at hpos
    rw [hnil] at hpos
    simp [utf8len] at hpos

theorem flush_chunk_flatten (buf : List Str) :
    (flush_chunk buf).flatten = buf.flatten := by
  rw [flush_chunk]
  by_cases h : buf.isEmpty
  · rw [if_pos h]
    rw [List.isEmpty_iff.mp h]
  · rw [if_neg h]
    simp

theorem flush_chunk_bound {buf : List Str} {mb : Nat}
    (h : utf8len buf.flatten ≤ mb) : ∀ ch ∈ flush_chunk buf, utf8len ch ≤ mb := by
  intro ch hch
  rw [flush_chunk] at hch
  by_cases hb : buf.isEmpty
  · rw [if_pos hb] at hch; simp at hch
  · rw [if_neg hb] at hch
    simp at hch
    rw [hch]
    exact h

theorem flush_chunk_ne_nil {buf : List Str} (hne : ∀ x ∈ buf, x ≠ []) :
    ∀ ch ∈ flush_chunk buf, ch ≠ [] := by
  intro ch hch
  rw [flush_chunk] at hch
  by_cases hb : buf.isEmpty
  · rw [if_pos hb] at hch; simp at hch
  · rw [if_neg hb] at hch
    simp at hch
    subst hch
    cases buf with
    | nil => simp at hb
    | cons x rest =>
      have hx := hne x (by simp)
      simp only [List.flatten_cons]
      intro hcon
      exact hx (List.append_eq_nil.mp hcon).1

theorem overflowStep_spec (mb : Nat) (token : Str) (buf : List Str)
    (bufB lb : Nat) (hb : bufB = utf8len buf.flatten) (hbm : bufB ≤ mb)
    (hlb : lb ≤ mb) (hne : ∀ x ∈ buf, x ≠ []) :
    ∃ em buf1 bufB1, overflowStep mb token buf bufB lb = some (em, buf1, bufB1) ∧
      bufB1 = utf8len buf1.flatten ∧
      em.flatten ++ buf1.flatten = buf.flatten ∧
      bufB1 + lb ≤ mb ∧
      (∀ ch ∈ em, utf8len ch ≤ mb) ∧
      (∀ ch ∈ em, ch ≠ []) ∧
      (∀ x ∈ buf1, x ≠ []) := by
  rw [overflowStep]
  by_cases hov : bufB + lb > mb
  · rw [if_pos hov]
    cases hlpb : last_preferred_boundary_bytes buf.flatten token with
    | none =>
      rw [if_pos hov]
      refine ⟨flush_chunk buf, [], 0, rfl, rfl, by simp [flush_chunk_flatten], by omega,
        flush_chunk_bound (hb ▸ hbm), flush_chunk_ne_nil hne, by simp⟩
    | some cut =>
      obtain ⟨pre, post, hsplit, happ, hlen, hpre⟩ := splitAt_of_lpb hlpb
      dsimp only
      rw [hsplit]
      by_cases hpost : post.isEmpty
      · have hpostnil : post = [] := List.isEmpty_iff.mp hpost
        simp only [if_pos hpost]
        by_cases h2 : 0 + lb > mb
        · omega
        · rw [if_neg h2]
          refine ⟨[pre], [], 0, rfl, rfl, ?_, by omega, ?_, ?_, by simp⟩
          · simp [← happ, hpostnil]
          · intro ch hch
            simp at hch
            rw [hch]
            have h3 : utf8len pre + utf8len post = bufB := by
              rw [hb, ← happ, utf8len_append]
            omega
          · intro ch hch
            simp at hch
            rw [hch]
            exact hpre
      · simp only [if_neg hpost]
        have hpostne : post ≠ [] := fun hn => hpost (by simp [hn])
        by_cases h2 : utf8len post + lb > mb
        · rw [if_pos h2]
          refine ⟨[pre] ++ flush_chunk [post], [], 0, rfl, rfl, ?_, by omega, ?_, ?_, by simp⟩
          · simp [flush_chunk, hpostne, ← happ]
          · intro ch hch
            simp [flush_chunk, hpostne] at hch
            have hcutle : cut ≤ bufB := by
              rw [hb, ← happ, utf8len_append, ← hlen]; omega
            rcases hch with hch | hch <;> rw [hch]
            · rw [hlen]; omega
            · have : utf8len pre + utf8len post = bufB := by
                rw [hb, ← happ, utf8len_append]
              omega
          · intro ch hch
            simp [flush_chunk, hpostne] at hch
            rcases hch with hch | hch <;> rw [hch]
            · exact hpre
            · exact hpostne
        · rw [if_neg h2]
          refine ⟨[pre], [post], utf8len post, rfl, by simp, ?_, by omega, ?_, ?_, ?_⟩
          · simp [← happ]
          · intro ch hch
            simp at hch
            rw [hch]
            have h3 : utf8len pre + utf8len post = bufB := by
              rw [hb, ← happ, utf8len_append]
            omega
          · intro ch hch
            simp at hch
            rw [hch]
            exact hpre
          · intro x hx
            simp at hx
            rw [hx]
            exact hpostne
  · rw [if_neg hov]
    exact ⟨[], buf, bufB, rfl, hb, by simp, by omega, by simp, by simp, hne⟩

theorem slh_go_flatten (mb : Nat) :
    ∀ (line cur : Str) (curB : Nat), (slh_go mb line cur curB).flatten = cur ++ line := by
  intro line
  induction line with
  | nil =>
    intro cur curB
    rw [slh_go]
    by_cases h : cur.isEmpty
    · rw [if_pos h, List.isEmpty_iff.mp h]
      rfl
    · rw [if_neg h]
      simp
  | cons ch rest ih =>
    intro cur curB
    rw [slh_go]
    by_cases h : curB + ch.utf8Size > mb
    · rw [if_pos h]
      simp [ih]
    · rw [if_neg h]
      simp [ih]

theorem slh_go_bound (mb : Nat) :
    ∀ (line cur : Str) (curB : Nat), curB = utf8len cur → curB ≤ mb →
    (∀ c ∈ line, c.utf8Size ≤ mb) →
    ∀ ch ∈ slh_go mb line cur curB, utf8len ch ≤ mb := by
  intro line
  induction line with
  | nil =>
    intro cur curB hb hbm _ ch hch
    rw [slh_go] at hch
    by_cases h : cur.isEmpty
    · rw [if_pos h] at hch; simp at hch
    · rw [if_neg h] at hch
      simp at hch
      rw [hch, ← hb]
      exact hbm
  | cons c rest ih =>
    intro cur curB hb hbm hchars ch hch
    rw [slh_go] at hch
    by_cases h : curB + c.utf8Size > mb
    · rw [if_pos h] at hch
      rcases List.mem_cons.mp hch with hch | hch
      · rw [hch, ← hb]; exact hbm
      · exact ih [c] c.utf8Size (by simp [utf8len]) (hchars c (by simp))
          (fun d hd => hchars d (by simp [hd])) ch hch
    · rw [if_neg h] at hch
      exact ih (cur ++ [c]) (curB + c.utf8Size)
        (by rw [hb, utf8len_append]; simp [utf8len]) (by omega)
        (fun d hd => hchars d (by simp [hd])) ch hch

theorem slh_go_ne_nil (mb : Nat) :
    ∀ (line cur : Str) (curB : Nat), curB = utf8len cur →
    (∀ c ∈ line, c.utf8Size ≤ mb) →
    ∀ ch ∈ slh_go mb line cur curB, ch ≠ [] := by
  intro line
  induction line with
  | nil =>
    intro cur curB hb _ ch hch
    rw [slh_go] at hch
    by_cases h : cur.isEmpty
    · rw [if_pos h] at hch; simp at hch
    · rw [if_neg h] at hch
      simp at hch
      rw [hch]
      intro hn
      exact h (by simp [hn])
  | cons c rest ih =>
    intro cur curB hb hchars ch hch
    rw [slh_go] at hch
    by_cases h : curB + c.utf8Size > mb
    · rw [if_pos h] at hch
      rcases List.mem_cons.mp hch with hch | hch
      · rw [hch]
        intro hn
        rw [hn] at hb
        rw [utf8len_nil] at hb
        have := hchars c (by simp)
        omega
      · exact ih [c] c.utf8Size (by simp [utf8len])
          (fun d hd => hchars d (by simp [hd])) ch hch
    · rw [if_neg h] at hch
      exact ih (cur ++ [c]) (curB + c.utf8Size)
        (by rw [hb, utf8len_append]; simp [utf8len])
        (fun d hd => hchars d (by simp [hd])) ch hch


theorem sus_go_spec (mb : Nat) (token : Str) :
    ∀ (lines buf : List Str) (bufB : Nat),
    bufB = utf8len buf.flatten → bufB ≤ mb →
    (∀ l ∈ lines, l ≠ []) → (∀ x ∈ buf, x ≠ []) →
    ∃ chunks, sus_go mb token lines buf bufB = some chunks ∧
      chunks.flatten = buf.flatten ++ lines.flatten ∧
      ((∀ l ∈ lines, ∀ c ∈ l, c.utf8Size ≤ mb) →
        (∀ ch ∈ chunks, utf8len ch ≤ mb) ∧ (∀ ch ∈ chunks, ch ≠ [])) := by
  intro lines
  induction lines with
  | nil =>
    intro buf bufB hb hbm _ hbufne
    exact ⟨flush_chunk buf, rfl, by simp [flush_chunk_flatten], fun _ =>
      ⟨flush_chunk_bound (hb ▸ hbm), flush_chunk_ne_nil hbufne⟩⟩
  | cons line rest ih =>
    intro buf bufB hb hbm hlne hbufne
    rw [sus_go]
    by_cases hlb : utf8len line > mb
    · rw [if_pos hlb]
      obtain ⟨t, ht, htf, htb⟩ := ih [] 0 rfl (by omega)
        (fun l hl => hlne l (List.mem_cons_of_mem _ hl)) (by simp)
      rw [ht]
      refine ⟨flush_chunk buf ++ split_line_hard line mb ++ t, rfl, ?_, ?_⟩
      · simp only [List.flatten_append, flush_chunk_flatten, split_line_hard,
          slh_go_flatten, htf, List.flatten_cons, List.flatten_nil,
          List.nil_append, List.append_assoc]
      · intro hchars
        have hcl : ∀ c ∈ line, c.utf8Size ≤ mb := hchars line (by simp)
        have hcr : ∀ l ∈ rest, ∀ c ∈ l, c.utf8Size ≤ mb :=
          fun l hl => hchars l (List.mem_cons_of_mem _ hl)
        obtain ⟨htbb, htbn⟩ := htb hcr
        constructor
        · intro ch hch
          rcases List.mem_append.mp hch with hch | hch
          · rcases List.mem_append.mp hch with hch | hch
            · exact flush_chunk_bound (hb ▸ hbm) ch hch
            · exact slh_go_bound mb line [] 0 rfl (by omega) hcl ch hch
          · exact htbb ch hch
        · intro ch hch
          rcases List.mem_append.mp hch with hch | hch
          · rcases List.mem_append.mp hch with hch | hch
            · exact flush_chunk_ne_nil hbufne ch hch
            · exact slh_go_ne_nil mb line [] 0 rfl hcl ch hch
          · exact htbn ch hch
    · rw [if_neg hlb]
      have hlble : utf8len line ≤ mb := by omega
      obtain ⟨em, buf1, bufB1, hstep, hb1, hflat, hle, hembound, hemne, hbuf1ne⟩ :=
        overflowStep_spec mb token buf bufB (utf8len line) hb hbm hlble hbufne
      rw [hstep]
      dsimp only
      obtain ⟨t, ht, htf, htb⟩ := ih (buf1 ++ [line]) (bufB1 + utf8len line)
        (by simp [List.flatten_append, utf8len_append, hb1])
        hle (fun l hl => hlne l (List.mem_cons_of_mem _ hl))
        (by
          intro x hx
          rcases List.mem_append.mp hx with hx | hx
          · exact hbuf1ne x hx
          · simp at hx
            rw [hx]
            exact hlne line (by simp))
      rw [ht]
      refine ⟨em ++ t, rfl, ?_, ?_⟩
      · rw [List.flatten_append, htf]
        rw [List.flatten_append]
        simp only [List.flatten_cons, List.flatten_nil, List.append_nil]
        rw [← List.append_assoc, ← List.append_assoc, hflat]
        simp [List.append_assoc]
      · intro hchars
        have hcr : ∀ l ∈ rest, ∀ c ∈ l, c.utf8Size ≤ mb :=
          fun l hl => hchars l (List.mem_cons_of_mem _ hl)
        obtain ⟨htbb, htbn⟩ := htb hcr
        constructor
        · intro ch hch
          rcases List.mem_append.mp hch with hch | hch
          · exact hembound ch hch
          · exact htbb ch hch
        · intro ch hch
          rcases List.mem_append.mp hch with hch | hch
          · exact hemne ch hch
          · exact htbn ch hch

theorem split_utf8_smart_spec (text : Str) (max_bytes : Nat) (token : Str) :
    ∃ chunks, split_utf8_smart text max_bytes token = some chunks ∧
      chunks.flatten = text ∧
      ((∀ c ∈ text, c.utf8Size ≤ max_bytes) →
        (∀ ch ∈ chunks, utf8len ch ≤ max_bytes) ∧ (∀ ch ∈ chunks, ch ≠ [])) := by
  obtain ⟨chunks, hs, hf, hcond⟩ :=
    sus_go_spec max_bytes token (splitlines text) [] 0 rfl (by omega)
      (fun l hl => splitlines_ne_nil hl) (by simp)
  refine ⟨chunks, hs, ?_, ?_⟩
  · rw [hf]
    simp [splitlines_flatten]
  · intro hchars
    refine hcond ?_
    intro l hl c hc
    refine hchars c ?_
    rw [← splitlines_flatten text]
    exact List.mem_flatten.mpr ⟨l, hl, hc⟩

/-- Claim C1 (counterexample): with `maxBytes = 1` and the two-byte character
`é` as the text, `split_utf8_smart` emits the chunk `é` whose UTF-8 byte
length is 2 > 1, so the byte bound does not hold for every `maxBytes ≥ 1`. -/
theorem splitter_byte_bound_cex :
    (S "é") ∈ (split_utf8_smart (S "é") 1 (S "x")).getD [] ∧
      ¬ utf8len (S "é") ≤ 1 := by decide

/-- Claim C1 (amended): whenever every character of `text` encodes in at most
`maxBytes` UTF-8 bytes (in particular whenever `maxBytes ≥ 4`), every chunk
returned by `split_utf8_smart text maxBytes completionToken` — including the
chunks produced by the hard-split fallback — has UTF-8 byte length at most
`maxBytes`. -/
theorem splitter_byte_bound (text : Str) (max_bytes : Nat) (token : Str)
    (hchars : ∀ c ∈ text, c.utf8Size ≤ max_bytes) :
    ∃ chunks, split_utf8_smart text max_bytes token = some chunks ∧
      ∀ ch ∈ chunks, utf8len ch ≤ max_bytes := by
  obtain ⟨chunks, hs, _, hcond⟩ := split_utf8_smart_spec text max_bytes token
  exact ⟨chunks, hs, (hcond hchars).1⟩

theorem splitter_byte_bound_witness :
    ∃ chunks, split_utf8_smart (S "ab") 4 (S "x") = some chunks ∧
      ∀ ch ∈ chunks, utf8len ch ≤ 4 :=
  splitter_byte_bound (S "ab") 4 (S "x") (by decide)

/-- Claim C2: for every text, `maxBytes` and completion token, the chunks
returned by `split_utf8_smart` concatenate, in order, to exactly the
original text. -/
theorem splitter_round_trip (text : Str) (max_bytes : Nat) (token : Str) :
    ∃ chunks, split_utf8_smart text max_bytes token = some chunks ∧
      chunks.flatten = text := by
  obtain ⟨chunks, hs, hf, _⟩ := split_utf8_smart_spec text max_bytes token
  exact ⟨chunks, hs, hf⟩

/-- Claim C3: every byte offset returned by `last_preferred_boundary_bytes`
is a cumulative line-end offset of the buffer; consequently the strict
decode of the two byte slices in `split_utf8_smart` always succeeds (the
split at the returned offset is always defined), and `split_utf8_smart`
never reaches its decode-error branches. -/
theorem splitter_boundary_safety :
    (∀ s token cut, last_preferred_boundary_bytes s token = some cut →
      ∃ k, 1 ≤ k ∧ k ≤ (splitlines s).length ∧
        cut = utf8len ((splitlines s).take k).flatten) ∧
    (∀ s token cut, last_preferred_boundary_bytes s token = some cut →
      (splitAtByteOffset s cut).isSome) ∧
    (∀ text max_bytes token, (split_utf8_smart text max_bytes token).isSome) := by
  refine ⟨?_, ?_, ?_⟩
  · intro s token cut h
    obtain ⟨i, hi, hcut⟩ := lpb_some_shape h
    exact ⟨i + 1, by omega, by omega, hcut⟩
  · intro s token cut h
    obtain ⟨pre, post, hsplit, -, -, -⟩ := splitAt_of_lpb h
    rw [hsplit]
    rfl
  · intro text max_bytes token
    obtain ⟨chunks, hs, -, -⟩ := split_utf8_smart_spec text max_bytes token
    rw [hs]
    rfl

theorem splitter_boundary_safety_witness :
    (∃ k, 1 ≤ k ∧ k ≤ (splitlines (S "--\n")).length ∧
      3 = utf8len ((splitlines (S "--\n")).take k).flatten) ∧
    (splitAtByteOffset (S "--\n") 3).isSome ∧
    (split_utf8_smart (S "a") 4 (S "x")).isSome :=
  ⟨splitter_boundary_safety.1 (S "--\n") (S "x") 3 (by decide),
   splitter_boundary_safety.2.1 (S "--\n") (S "x") 3 (by decide),
   splitter_boundary_safety.2.2 (S "a") 4 (S "x")⟩

/-- Claim C10: when `maxBytes ≥ 4` (at least the widest UTF-8 code point),
every chunk returned by `split_utf8_smart` is non-empty, and the chunk list
is empty exactly when the text is empty. -/
theorem splitter_nonempty_chunks (text : Str) (max_bytes : Nat) (token : Str)
    (h4 : 4 ≤ max_bytes) :
    ∃ chunks, split_utf8_smart text max_bytes token = some chunks ∧
      (∀ ch ∈ chunks, ch ≠ []) ∧ (chunks = [] ↔ text = []) := by
  obtain ⟨chunks, hs, hf, hcond⟩ := split_utf8_smart_spec text max_bytes token
  have hchars : ∀ c ∈ text, c.utf8Size ≤ max_bytes :=
    fun c _ => le_trans (Char.utf8Size_le_four c) h4
  obtain ⟨-, hne⟩ := hcond hchars
  refine ⟨chunks, hs, hne, ?_, ?_⟩
  · intro hnil
    rw [← hf, hnil]
    rfl
  · intro htext
    cases hch : chunks with
    | nil => rfl
    | cons ch t =>
      exfalso
      have h1 : ch ≠ [] := hne ch (by rw [hch]; simp)
      have h2 : chunks.flatten = [] := by rw [hf, htext]
      rw [hch] at h2
      simp only [List.flatten_cons] at h2
      exact h1 (List.append_eq_nil.mp h2).1

theorem splitter_nonempty_chunks_witness :
    ∃ chunks, split_utf8_smart (S "a") 4 (S "x") = some chunks ∧
      (∀ ch ∈ chunks, ch ≠ []) ∧ (chunks = [] ↔ (S "a") = []) :=
  splitter_nonempty_chunks (S "a") 4 (S "x") (by omega)

/-- Claim C4: `last_preferred_boundary_bytes` returns the byte offset of the
last qualifying cut point by position in the buffer — Rule A (blank line
whose most recent preceding non-empty line contains the completion token
after stripping emphasis and case folding) and Rule B (line stripping to
exactly `--`) evaluated across the whole buffer with no priority between
them — and returns `none` exactly when no line qualifies. -/
theorem preferred_boundary_last (s token : Str) :
    last_preferred_boundary_bytes s token = (qualifyingOffsets s token).getLast? ∧
    (last_preferred_boundary_bytes s token = none ↔
      ∀ i < (splitlines s).length, qualifiesAt token (splitlines s) i = false) := by
  have h1 : last_preferred_boundary_bytes s token
      = (qualifyingOffsets s token).getLast? := by
    rw [last_preferred_boundary_bytes, lpb_go_eq]
    rw [qualifyingOffsets]
    congr 1
    apply List.map_congr_left
    intro i _
    omega
  refine ⟨h1, ?_⟩
  rw [h1]
  rw [List.getLast?_eq_none_iff]
  rw [qualifyingOffsets, List.map_eq_nil_iff, List.filter_eq_nil_iff]
  constructor
  · intro h i hi
    have := h i (List.mem_range.mpr hi)
    simpa using this
  · intro h i hi
    simp [h i (List.mem_range.mp hi)]

theorem preferred_boundary_last_witness :
    last_preferred_boundary_bytes (S "--\n") (S "x")
        = (qualifyingOffsets (S "--\n") (S "x")).getLast? ∧
    (last_preferred_boundary_bytes (S "--\n") (S "x") = none ↔
      ∀ i < (splitlines (S "--\n")).length,
        qualifiesAt (S "x") (splitlines (S "--\n")) i = false) :=
  preferred_boundary_last (S "--\n") (S "x")

theorem count_filter_not_contains (keys : List Str) (l : List Parking) (p : Parking) :
    (l.filter (fun q => !(keys.contains (parking_key_identifier q)))).count p =
      if parking_key_identifier p ∈ keys then 0 else l.count p := by
  by_cases h : parking_key_identifier p ∈ keys
  · rw [if_pos h]
    apply List.count_eq_zero.mpr
    intro hmem
    have h2 := (List.mem_filter.mp hmem).2
    simp only [Bool.not_eq_true'] at h2
    exact (by simpa using h2 : parking_key_identifier p ∉ keys) h
  · rw [if_neg h]
    apply List.count_filter
    simp [List.elem_iff, h]

theorem mem_filter_not_contains (keys : List Str) (l : List Parking) (p : Parking) :
    p ∈ l.filter (fun q => !(keys.contains (parking_key_identifier q))) ↔
      p ∈ l ∧ parking_key_identifier p ∉ keys := by
  rw [List.mem_filter]
  constructor
  · rintro ⟨h1, h2⟩
    simp only [Bool.not_eq_true'] at h2
    exact ⟨h1, by simpa using h2⟩
  · rintro ⟨h1, h2⟩
    exact ⟨h1, by simp [List.elem_iff, h2]⟩

theorem key_not_mem_map (previous : List Parking) (p : Parking) :
    parking_key_identifier p ∉ previous.map parking_key_identifier ↔
      ∀ q ∈ previous, parking_key_identifier q ≠ parking_key_identifier p := by
  simp [List.mem_map]

/-- Claim C5: `compare_parkings` returns as `added` exactly the records of
`current` whose identity key is absent from the key set of `previous`, as
`removed` exactly the records of `previous` whose key is absent from the key
set of `current`, and an empty previous snapshot yields `removed = ∅` and
`added = current`. -/
theorem diff_added_removed (previous current : List Parking) :
    (∀ p, p ∈ (compare_parkings previous current).added ↔
      p ∈ current ∧
        ∀ q ∈ previous, parking_key_identifier q ≠ parking_key_identifier p) ∧
    (∀ p, p ∈ (compare_parkings previous current).removed ↔
      p ∈ previous ∧
        ∀ q ∈ current, parking_key_identifier q ≠ parking_key_identifier p) ∧
    (compare_parkings [] current = { added := current, removed := [] }) := by
  refine ⟨?_, ?_, ?_⟩
  · intro p
    rw [compare_parkings]
    simp only
    rw [mem_filter_not_contains, key_not_mem_map]
  · intro p
    rw [compare_parkings]
    simp only
    rw [mem_filter_not_contains, key_not_mem_map]
  · rw [compare_parkings]
    simp [List.filter_eq_self]

theorem diff_added_removed_witness :
    cexParking ∈ (compare_parkings [] [cexParking]).added :=
  ((diff_added_removed [] [cexParking]).1 cexParking).mpr
    ⟨by simp, by simp⟩

/-- Claim C8 (counterexample): a current snapshot containing the same record
twice (same identity key, absent from the empty previous snapshot) produces
an `added` list with both occurrences — `compare_parkings` does not
deduplicate within `current`, so `added` can hold two records with one
identity key. -/
theorem diff_dedup_cex :
    (compare_parkings [] [cexParking, cexParking]).added
        = [cexParking, cexParking] ∧
      ¬ (compare_parkings [] [cexParking, cexParking]).added.count cexParking ≤ 1 := by
  constructor
  · rfl
  · decide

/-- Claim C8 (amended): `compare_parkings` deduplicates only against the
previous key set, not within `current`: each occurrence of a record in
`current` whose key is absent from the previous key set appears in `added`
(multiplicities are preserved, so `added` may hold several records with the
same identity key). -/
theorem diff_added_multiplicity (previous current : List Parking) (p : Parking) :
    (compare_parkings previous current).added.count p =
      if parking_key_identifier p ∈ previous.map parking_key_identifier
      then 0 else current.count p := by
  rw [compare_parkings]
  simp only
  exact count_filter_not_contains _ _ _

/-- Claim C9: the `added` list is an order-preserving sublist of `current`
and the `removed` list an order-preserving sublist of `previous` (duplicates
retained, multiplicities of the matching records preserved), although the
spec promises no ordering from the diff engine. -/
theorem diff_order_preserving (previous current : List Parking) :
    (compare_parkings previous current).added.Sublist current ∧
    (compare_parkings previous current).removed.Sublist previous ∧
    (∀ p, (compare_parkings previous current).removed.count p =
      if parking_key_identifier p ∈ current.map parking_key_identifier
      then 0 else previous.count p) := by
  refine ⟨List.filter_sublist _, List.filter_sublist _, ?_⟩
  intro p
  rw [compare_parkings]
  simp only
  exact count_filter_not_contains _ _ _

/-- Claim C7 (counterexample): a state file whose bytes are not valid UTF-8
is content that fails to parse as JSON, yet `read_text` raises
`UnicodeDecodeError` — a `ValueError` matched by none of the `except`
clauses — so `parking_state_load` propagates the exception (modelled as
`none`) instead of returning an empty snapshot and deleting the file. -/
theorem state_load_recovery_cex :
    parking_state_load rejectAll true .unicodeDecodeError = none ∧
    parking_state_load rejectAll true .unicodeDecodeError ≠
      some { snapshot := [], stateFileDeleted := true } := by
  refine ⟨rfl, ?_⟩
  intro h
  simp [parking_state_load] at h

/-- Claim C7 (amended): for state-file content that decodes as UTF-8 but
fails JSON parsing or Record validation, `parking_state_load` returns an
empty snapshot and deletes the backing file (best-effort, deletion failures
swallowed: the returned snapshot does not depend on the unlink outcome); a
missing file and any other read `OSError` both yield an empty snapshot
without deletion; but on content that is not valid UTF-8 the
`UnicodeDecodeError` raised by `read_text` propagates uncaught and the file
is left in place. -/
theorem state_load_recovery :
    (∀ validate unlinkOk text, validate text = none →
      parking_state_load validate unlinkOk (.ok text) =
        some { snapshot := [], stateFileDeleted := unlinkOk }) ∧
    (∀ validate unlinkOk, parking_state_load validate unlinkOk .fileNotFound =
      some { snapshot := [], stateFileDeleted := false }) ∧
    (∀ validate unlinkOk, parking_state_load validate unlinkOk .osError =
      some { snapshot := [], stateFileDeleted := false }) ∧
    (∀ validate unlinkOk,
      parking_state_load validate unlinkOk .unicodeDecodeError = none) := by
  refine ⟨?_, fun _ _ => rfl, fun _ _ => rfl, fun _ _ => rfl⟩
  intro validate unlinkOk text h
  simp [parking_state_load, h]

theorem state_load_recovery_witness :
    parking_state_load rejectAll true (.ok (S "not json")) =
      some { snapshot := [], stateFileDeleted := true } :=
  state_load_recovery.1 rejectAll true (S "not json") rfl

theorem headerAreaOf_header (area : Str) :
    headerAreaOf ('\n' :: '*' :: (area ++ ['*', '\n'])) = some area := by
  rw [headerAreaOf]
  have hrev : (area ++ ['*', '\n']).reverse = '\n' :: '*' :: area.reverse := by
    simp
  rw [if_pos ⟨rfl, rfl⟩, hrev]
  simp

theorem headerAreaOf_not_newline {c : Char} (s : Str) (h : ¬ c = '\n') :
    headerAreaOf (c :: s) = none := by
  cases s with
  | nil => rfl
  | cons c2 rest =>
    rw [headerAreaOf]
    rw [if_neg (fun hc => h hc.1)]

theorem headerAreaOf_space (s : Str) : headerAreaOf (' ' :: s) = none :=
  headerAreaOf_not_newline s (by decide)

theorem format_item_headers (p : Parking) (b : Bool) :
    ∀ part ∈ _format_single_parking_item p b, headerAreaOf part = none := by
  intro part hpart
  rw [_format_single_parking_item] at hpart
  rcases List.mem_append.mp hpart with hpart | hpart
  · simp only [List.mem_cons, List.mem_singleton] at hpart
    rcases hpart with h | h | h | h | h | h
    · rw [h]; exact headerAreaOf_space _
    · rw [h]; exact headerAreaOf_space _
    · rw [h]; exact headerAreaOf_space _
    · rw [h]; exact headerAreaOf_space _
    · rw [h]; exact headerAreaOf_space _
    · simp at h
  · by_cases hb : b
    · rw [if_pos hb] at hpart
      simp at hpart
    · rw [if_neg hb] at hpart
      simp at hpart
      rw [hpart]
      exact headerAreaOf_space _

theorem formatParkingsLoop_headers (l : List Parking) :
    ∀ part ∈ formatParkingsLoop l, headerAreaOf part = none := by
  induction l with
  | nil => intro part hpart; simp [formatParkingsLoop] at hpart
  | cons p rest ih =>
    intro part hpart
    cases rest with
    | nil => exact format_item_headers p true part hpart
    | cons q rest2 =>
      rw [formatParkingsLoop] at hpart
      rcases List.mem_append.mp hpart with hpart | hpart
      · exact format_item_headers p false part hpart
      · exact ih part hpart


theorem headersOf_area_blocks (grp : List (Str × List Parking)) :
    ∀ keys : List Str,
    List.filterMap headerAreaOf
      (keys.flatMap (fun area_name =>
        ('\n' :: '*' :: area_name ++ ['*', '\n']) ::
          (formatParkingsLoop
              (sorted_parkings_in_area ((grp.lookup area_name).getD []))
            ++ [[]])))
      = keys := by
  intro keys
  induction keys with
  | nil => rfl
  | cons area rest ih =>
    rw [List.flatMap_cons, List.filterMap_append]
    rw [List.filterMap_cons]
    have hh : headerAreaOf ('\n' :: '*' :: area ++ ['*', '\n']) = some area :=
      headerAreaOf_header area
    rw [hh]
    rw [List.filterMap_append]
    have hitems : List.filterMap headerAreaOf
        (formatParkingsLoop (sorted_parkings_in_area ((grp.lookup area).getD []))) = [] :=
      List.filterMap_eq_nil_iff.mpr (formatParkingsLoop_headers _)
    rw [hitems]
    have hempty : List.filterMap headerAreaOf [([] : Str)] = [] := rfl
    rw [hempty, ih]
    rfl

theorem strLeB_trans (a b c : Str) (h1 : strLeB a b = true) (h2 : strLeB b c = true) :
    strLeB a c = true := by
  rw [strLeB, decide_eq_true_eq] at *
  exact le_trans h1 h2

theorem strLeB_total (a b : Str) : (strLeB a b || strLeB b a) = true := by
  rcases le_total (a.map Char.toNat) (b.map Char.toNat) with h | h
  · simp [strLeB, h]
  · simp [strLeB, h]

theorem parkingLe_trans (p q r : Parking) (h1 : parkingLe p q = true)
    (h2 : parkingLe q r = true) : parkingLe p r = true := by
  rw [parkingLe, decide_eq_true_eq] at *
  exact le_trans h1 h2

theorem parkingLe_total (p q : Parking) : (parkingLe p q || parkingLe q p) = true := by
  rcases le_total (parkingSortKey p) (parkingSortKey q) with h | h
  · simp [parkingLe, h]
  · simp [parkingLe, h]

theorem mergeSort_pair {α : Type} (le : α → α → Bool) (x y : α) :
    [x, y].mergeSort le = if le x y then [x, y] else [y, x] := by
  simp [List.mergeSort]
  by_cases h : le x y
  · simp [h, List.merge]
  · simp [h, List.merge]

theorem headersOf_format (title : Str) (grp : List (Str × List Parking))
    (htitle : headerAreaOf title = none) :
    headersOf (format_parking_grp_msg title grp)
      = (grp.map Prod.fst).mergeSort strLeB := by
  rw [format_parking_grp_msg]
  by_cases hg : grp.isEmpty
  · rw [if_pos hg]
    have hgr : grp = [] := List.isEmpty_iff.mp hg
    rw [hgr]
    simp [headersOf, List.mergeSort_nil]
  · rw [if_neg hg]
    rw [headersOf, List.filterMap_append]
    have ht : List.filterMap headerAreaOf [title] = [] := by
      rw [List.filterMap_cons, htitle]
      rfl
    rw [ht, headersOf_area_blocks grp]
    rfl

theorem cex_headers_eq :
    headersOf (format_parking_grp_msg (S "Nya parkeringsplatser hittade:") cexGrp)
      = [S "B", S "a"] := by
  rw [headersOf_format (S "Nya parkeringsplatser hittade:") cexGrp (by decide)]
  have hmap : cexGrp.map Prod.fst = [S "a", S "B"] := rfl
  rw [hmap, mergeSort_pair]
  have hle : strLeB (S "a") (S "B") = false := by decide
  rw [hle]
  rfl

/-- Claim C6 (counterexample): with areas `a` and `B`, the composed message
emits the header for `B` before the header for `a` (Python `sorted` compares
code points, and `B` < `a`), which is not case-insensitive alphabetical
order (`a` comes before `B` when case is folded). -/
theorem composer_sorting_cex :
    headersOf (format_parking_grp_msg (S "Nya parkeringsplatser hittade:") cexGrp)
        = [S "B", S "a"] ∧
    ¬ (headersOf (format_parking_grp_msg (S "Nya parkeringsplatser hittade:") cexGrp)).Pairwise
        (fun a b => ciLe a b = true) := by
  refine ⟨cex_headers_eq, ?_⟩
  rw [cex_headers_eq]
  decide

/-- Claim C6 (amended): for every grouped diff, the area headers of the
composed message appear sorted by Python's case-sensitive code-point string
order (not case-insensitively), while within each area the records are
sorted by the tuple (address, kind, rent, access, interest) compared
case-insensitively in that priority order.  The title hypothesis records
that the fixed section titles are not themselves header-shaped. -/
theorem composer_sorting (title : Str) (grp : List (Str × List Parking))
    (htitle : headerAreaOf title = none) :
    headersOf (format_parking_grp_msg title grp)
        = (grp.map Prod.fst).mergeSort strLeB ∧
    (headersOf (format_parking_grp_msg title grp)).Pairwise
      (fun a b => strLeB a b = true) ∧
    ∀ l : List Parking, (sorted_parkings_in_area l).Pairwise
      (fun p q => parkingLe p q = true) := by
  refine ⟨headersOf_format title grp htitle, ?_, ?_⟩
  · rw [headersOf_format title grp htitle]
    exact List.sorted_mergeSort strLeB_trans strLeB_total (grp.map Prod.fst)
  · intro l
    exact List.sorted_mergeSort parkingLe_trans parkingLe_total l

theorem composer_sorting_witness :
    headersOf (format_parking_grp_msg (S "T") cexGrp)
        = (cexGrp.map Prod.fst).mergeSort strLeB :=
  (composer_sorting (S "T") cexGrp (by decide)).1

end ParkingFinder
